import Mathlib

/-!
Verification of the finnwalks.com scheduling core against its specification.

The definitions below are a shallow embedding of the server-side storage and
route logic (`server/storage.ts`, `server/routes.ts`, `shared/schema.ts`):

* Calendar dates (`YYYY-MM-DD` strings, validated upstream by the zod schema
  regex and by JavaScript `Date` parsing, which rejects out-of-range
  components) are represented by their `(year, month, day)` fields.  The
  JavaScript `setDate(+1)` / `toISOString()` day-stepping is the proleptic
  Gregorian successor function `nextDay`.
* JavaScript objects used as string-keyed records (`MemStorage.slots`,
  `MemStorage.walkers`, the `walkCounts` accumulator) are represented as
  association lists in insertion order, which is exactly the enumeration
  order of non-integer string keys in JavaScript.
* The `while` loop that searches for the lowest free color index is given an
  explicit fuel parameter; a `none` result means the source loop does not
  terminate.
-/

namespace FinnWalks

/-- Leap-year test, as in the proleptic Gregorian calendar used by JavaScript
`Date` arithmetic. -/
def isLeap (y : Nat) : Bool :=
  (y % 4 == 0 && y % 100 != 0) || y % 400 == 0

/-- Days in a month of a given year (JavaScript `Date` rollover rules).  The
final catch-all branch is never reached for a valid month. -/
def daysInMonth (y m : Nat) : Nat :=
  match m with
  | 1 => 31
  | 2 => if isLeap y then 29 else 28
  | 3 => 31
  | 4 => 30
  | 5 => 31
  | 6 => 30
  | 7 => 31
  | 8 => 31
  | 9 => 30
  | 10 => 31
  | 11 => 30
  | 12 => 31
  | _ => 30

/-- A calendar date: the `(year, month, day)` fields of a `YYYY-MM-DD`
string. -/
structure Date where
  year : Nat
  month : Nat
  day : Nat
deriving DecidableEq, Repr

/-- The date strings accepted by JavaScript `new Date("YYYY-MM-DD")`:
month in 1..12 and day within the month. -/
def ValidDate (d : Date) : Prop :=
  1 ≤ d.month ∧ d.month ≤ 12 ∧ 1 ≤ d.day ∧ d.day ≤ daysInMonth d.year d.month

instance : DecidablePred ValidDate := fun d => by
  unfold ValidDate; infer_instance

/-- Successor date: the effect of JavaScript `date.setDate(date.getDate() + 1)`
followed by re-reading the ISO date string. -/
def nextDay (d : Date) : Date :=
  if d.day < daysInMonth d.year d.month then ⟨d.year, d.month, d.day + 1⟩
  else if d.month < 12 then ⟨d.year, d.month + 1, 1⟩
  else ⟨d.year + 1, 1, 1⟩

/-- Adding `n` days: iterated `nextDay`. -/
def addDays (d : Date) : Nat → Date
  | 0 => d
  | n + 1 => nextDay (addDays d n)

/-- A rank that realizes the calendar (equivalently, the zero-padded string)
order on valid dates: months contribute at most `12 * 50 + 31 < 1000` to the
year block, and days at most `31 < 50` to the month block. -/
def dateRank (d : Date) : Nat :=
  d.year * 1000 + d.month * 50 + d.day

/-- The order used by the SQL `gte`/`lte` comparisons on `YYYY-MM-DD`
varchar columns: string order, which on valid zero-padded dates is the
calendar order realized by `dateRank`. -/
def dateLe (a b : Date) : Prop :=
  dateRank a ≤ dateRank b

/-- Strict version of `dateLe`. -/
def dateLt (a b : Date) : Prop :=
  dateRank a < dateRank b

instance (a b : Date) : Decidable (dateLe a b) := by
  unfold dateLe; infer_instance

instance (a b : Date) : Decidable (dateLt a b) := by
  unfold dateLt; infer_instance

/-! ## Slot store (`MemStorage` in `server/storage.ts`)

`MemStorage.slots` is a JavaScript object keyed by `` `${date}:${time}` ``.
For inputs that passed the zod schemas (`date` matching `^\d{4}-\d{2}-\d{2}$`,
`time` matching `^\d{4}$`) the key determines and is determined by the
`(date, time)` pair, so the record is represented as an association list
keyed by that pair, in insertion order. -/
/-- A booked slot (`WalkingSlot` in `shared/schema.ts`).  The `date` field is
the parsed form of the `YYYY-MM-DD` string. -/
structure WalkingSlot where
  date : Date
  time : String
  name : String
  notes : String
  timestamp : Nat
deriving DecidableEq, Repr

/-- Input to `addSlot` (`InsertSlot` in `shared/schema.ts`; the in-memory
store ignores `phone`). -/
structure InsertSlot where
  date : Date
  time : String
  name : String
  notes : Option String
deriving DecidableEq, Repr

/-- The slot record: association list from `(date, time)` keys to slots. -/
abbrev SlotStore := List ((Date × String) × WalkingSlot)

/-- Function `createSlotKey` from `MemStorage`. -/
def createSlotKey (date : Date) (time : String) : Date × String :=
  (date, time)

/-- Method `MemStorage.getSlot`: point lookup by key; `null` when absent. -/
def getSlot (s : SlotStore) (date : Date) (time : String) : Option WalkingSlot :=
  (s.find? (fun e => decide (e.1 = createSlotKey date time))).map (·.2)

/-- Method `MemStorage.addSlot`: throws `'Slot is already booked'` when the key is
occupied, otherwise stores a new slot stamped with the current instant. -/
def addSlot (s : SlotStore) (input : InsertSlot) (now : Nat) :
    Except String (SlotStore × WalkingSlot) :=
  if (getSlot s input.date input.time).isSome then
    .error "Slot is already booked"
  else
    let newSlot : WalkingSlot :=
      ⟨input.date, input.time, input.name, input.notes.getD "", now⟩
    .ok (s ++ [(createSlotKey input.date input.time, newSlot)], newSlot)

/-- Method `MemStorage.removeSlot`: returns `false` and leaves the store unchanged
when no slot exists at the key, otherwise deletes the key and returns
`true`. -/
def removeSlot (s : SlotStore) (date : Date) (time : String) :
    SlotStore × Bool :=
  if (getSlot s date time).isSome then
    (s.filter (fun e => decide (e.1 ≠ createSlotKey date time)), true)
  else (s, false)

/-- Result of the `DELETE /api/slot` route. -/
inductive CancelResult where
  | notFound
  | success
deriving DecidableEq, Repr

/-- The `DELETE /api/slot` handler in `server/routes.ts` (after zod
validation): looks the slot up, answers 404 when absent, otherwise removes
it and emits a cancel notification built as `{ ...slot, name }` with the
caller-supplied name.  The handler never compares `slot.name` with the
supplied `name`. -/
def cancelHandler (s : SlotStore) (date : Date) (time name : String) :
    CancelResult × SlotStore × Option WalkingSlot :=
  match getSlot s date time with
  | none => (.notFound, s, none)
  | some slot =>
      (.success, (removeSlot s date time).1, some { slot with name := name })

/-- Stores reachable from the empty store by `addSlot` / `removeSlot`. -/
inductive SlotReachable : SlotStore → Prop where
  | empty : SlotReachable []
  | add {s input now s' slot} : SlotReachable s →
      addSlot s input now = .ok (s', slot) → SlotReachable s'
  | remove {s date time} : SlotReachable s →
      SlotReachable (removeSlot s date time).1

/-- Internal invariant of the slot record: every entry sits at the key built
from its own `(date, time)` fields, and keys are distinct. -/
def GoodStore (s : SlotStore) : Prop :=
  (∀ e ∈ s, e.1 = createSlotKey e.2.date e.2.time) ∧ (s.map (·.1)).Nodup

/-- Count of entries in the store whose slot carries the given
`(date, time)`. -/
def slotCount (s : SlotStore) (date : Date) (time : String) : Nat :=
  s.countP (fun e => decide (e.2.date = date ∧ e.2.time = time))

/-- The store holding the single slot booked by `OwnerUser` at
2025-04-21 18:00. -/
def ownerStore : SlotStore :=
  [((⟨2025, 4, 21⟩, "1800"), ⟨⟨2025, 4, 21⟩, "1800", "OwnerUser", "", 0⟩)]

/-! ## Walker color registry (`MemStorage.walkers` in `server/storage.ts`)

`MemStorage.walkers` is a JavaScript object mapping walker names to color
indices, represented as an association list in insertion order.  The
lowest-free-index `while` loop is given an explicit fuel parameter: a
`none` result means the source loop never exits. -/
/-- Constant `MAX_COLORS` from `server/storage.ts`. -/
def MAX_COLORS : Nat := 10

/-- The walker record: names to color indices, in insertion order. -/
abbrev Registry := List (String × Nat)

/-- Lookup of `this.walkers[name]`. -/
def lookupWalker (w : Registry) (name : String) : Option Nat :=
  (w.find? (fun e => decide (e.1 = name))).map (·.2)

/-- The color indices currently assigned (`Object.values(this.walkers)`). -/
def usedIndices (w : Registry) : List Nat :=
  w.map (·.2)

/-- The `while (existingIndices.includes(nextIndex))` loop of
`getWalkerColorIndex`, with fuel: each iteration replaces `nextIndex` by
`(nextIndex + 1) % MAX_COLORS`.  `none` means the loop runs forever. -/
def findFreeIdx (used : List Nat) : Nat → Nat → Option Nat
  | nextIndex, fuel =>
    if used.contains nextIndex then
      match fuel with
      | 0 => none
      | fuel + 1 => findFreeIdx used ((nextIndex + 1) % MAX_COLORS) fuel
    else some nextIndex

/-- Method `MemStorage.getWalkerColorIndex`: returns the stored index when the
walker exists; otherwise assigns the index found by the loop (started at 0)
and appends the new walker.  `none` reports that the loop diverged. -/
def getWalkerColorIndex (w : Registry) (name : String) (fuel : Nat) :
    Option (Nat × Registry) :=
  match lookupWalker w name with
  | some i => some (i, w)
  | none =>
      match findFreeIdx (usedIndices w) 0 fuel with
      | none => none
      | some idx => some (idx, w ++ [(name, idx)])

/-- The least free index in `[0, MAX_COLORS)` relative to a list of used
indices. -/
def IsLeastFree (used : List Nat) (k : Nat) : Prop :=
  k < MAX_COLORS ∧ k ∉ used ∧ ∀ j < k, j ∈ used

instance (used : List Nat) (k : Nat) : Decidable (IsLeastFree used k) := by
  unfold IsLeastFree; infer_instance

/-- Registry states reachable through `getWalkerColorIndex` registrations
(`MemStorage.updateWalker` stores nothing beyond this call). -/
inductive RegistryReachable : Registry → Prop where
  | empty : RegistryReachable []
  | getColor {w name i w'} : RegistryReachable w →
      getWalkerColorIndex w name MAX_COLORS = some (i, w') →
      RegistryReachable w'

/-! ## Replit key-value walker registry (`ReplitStorage` in
`server/storage.ts`)

`ReplitStorage` keeps one key-value record per walker under
`` `walker:${name}` ``, holding `{ colorIndex, phone? }`.  `db.set` replaces
the whole value at the key. -/
/-- The value stored at a `walker:` key. -/
structure WalkerData where
  colorIndex : Nat
  phone : Option String
deriving DecidableEq, Repr

/-- The Replit walker store, in insertion order. -/
abbrev ReplitReg := List (String × WalkerData)

/-- Lookup of the `walker:` key for a name. -/
def lookupReplit (w : ReplitReg) (name : String) : Option WalkerData :=
  (w.find? (fun e => decide (e.1 = name))).map (·.2)

/-- Effect of `db.set` on an existing or fresh `walker:` key: replaces the stored
value, or appends when the key is new. -/
def setReplit (w : ReplitReg) (name : String) (v : WalkerData) : ReplitReg :=
  if (w.find? (fun e => decide (e.1 = name))).isSome then
    w.map (fun e => if e.1 = name then (name, v) else e)
  else w ++ [(name, v)]

/-- JavaScript `phone || undefined`: an absent or empty string becomes
`undefined`. -/
def orUndefined (p : Option String) : Option String :=
  match p with
  | some s => if s = "" then none else some s
  | none => none

/-- Method `ReplitStorage.getWalkerColorIndex` (same lowest-free-index loop as the
in-memory store; a brand-new walker is stored as `{ colorIndex }` with no
phone). -/
def replitGetWalkerColorIndex (w : ReplitReg) (name : String) (fuel : Nat) :
    Option (Nat × ReplitReg) :=
  match lookupReplit w name with
  | some data => some (data.colorIndex, w)
  | none =>
      match findFreeIdx (w.map (·.2.colorIndex)) 0 fuel with
      | none => none
      | some idx => some (idx, setReplit w name ⟨idx, none⟩)

/-- Method `ReplitStorage.updateWalker`: fetches (or assigns) the color index, then
overwrites the stored record with `{ colorIndex, phone: phone || undefined }`,
and returns `{ name, colorIndex, phone }`. -/
def replitUpdateWalker (w : ReplitReg) (name : String) (phone : Option String)
    (fuel : Nat) : Option ((String × Nat × Option String) × ReplitReg) :=
  match replitGetWalkerColorIndex w name fuel with
  | none => none
  | some (colorIndex, w1) =>
      some ((name, colorIndex, phone),
        setReplit w1 name ⟨colorIndex, orUndefined phone⟩)

/-! ## Postgres walker color lookup behind the HTTP route
(`DatabaseStorage.getWalkerColorIndex` and `GET /api/walker-color/:name` in
`server/routes.ts`)

`DatabaseStorage.getWalkerColorIndex` wraps every database access in a
`try`/`catch` whose handler returns the default index `0`.  An unreachable
backing store is modelled by the `unavailable` state, in which every query
throws and the catch branch fires.  (The `none` fuel-exhaustion case of the
underlying loop cannot fire below ten registered walkers and is mapped to
the same catch default.) -/
/-- The backing store as seen by `DatabaseStorage`: reachable with walker
rows, or unreachable (every query throws). -/
inductive DbState where
  | unavailable
  | avail (w : Registry)
deriving DecidableEq, Repr

/-- Method `DatabaseStorage.getWalkerColorIndex`: the catch branch turns any store
failure into the returned default `0`. -/
def dbGetWalkerColorIndex (db : DbState) (name : String) : Nat × DbState :=
  match db with
  | .unavailable => (0, .unavailable)
  | .avail w =>
      match getWalkerColorIndex w name MAX_COLORS with
      | some (i, w') => (i, .avail w')
      | none => (0, .avail w)

/-- The `GET /api/walker-color/:name` handler: always answers
`200 { colorIndex }` because the storage call never throws; the route's own
500 branch is unreachable.  The result is `(HTTP status, colorIndex)`. -/
def walkerColorRoute (db : DbState) (name : String) : Nat × Nat :=
  (200, (dbGetWalkerColorIndex db name).1)

/-- The registry after ten distinct walkers were registered in sequence:
all of 0..9 are in use. -/
def exhaustedRegistry : Registry :=
  [("W0", 0), ("W1", 1), ("W2", 2), ("W3", 3), ("W4", 4),
   ("W5", 5), ("W6", 6), ("W7", 7), ("W8", 8), ("W9", 9)]

/-! ## Week schedule (`MemStorage.getSchedule` / `DatabaseStorage.getSchedule`)

Both implementations build seven consecutive dates from the start date,
bucket the stored slots whose date is one of the seven under that date (in
store order), and sort each bucket ascending by time
(`a.time.localeCompare(b.time)`, which on fixed-width zero-padded digit
strings is plain lexicographic order). -/
/-- Lexicographic order on character lists: the effect of
`a.localeCompare(b) <= 0` on fixed-width digit strings such as `HHMM`. -/
def charListLe : List Char → List Char → Bool
  | [], _ => true
  | _ :: _, [] => false
  | a :: as, b :: bs => if a = b then charListLe as bs else decide (a < b)

/-- The schedule sort comparator: ascending by `time`. -/
def timeLe (a b : WalkingSlot) : Bool :=
  charListLe a.time.data b.time.data

/-- Method `getSchedule`: seven consecutive dates from the start date, each with
the slots stored under it (in store order) sorted ascending by time. -/
def getSchedule (slots : List WalkingSlot) (startDate : Date) :
    List (Date × List WalkingSlot) :=
  (List.range 7).map fun i =>
    (addDays startDate i,
      (slots.filter (fun s => decide (s.date = addDays startDate i))).mergeSort
        timeLe)

/-! ## Leaderboards (`DatabaseStorage.getLeaderboardAllTime` /
`getLeaderboardNextWeek`)

Both build a `walkCounts` record by iterating over the fetched slots
(`walkCounts[name] = (walkCounts[name] || 0) + 1`), attach a color index to
each `Object.entries` pair, and sort descending by count with the stable
JavaScript sort `(a, b) => b.totalWalks - a.totalWalks`.  The next-week
variant first restricts the query to `startDate <= date <= startDate + 6`.
The registry interaction is abstracted as a pure color lookup: the claim
constrains only counts and ordering. -/
/-- One step of the count accumulation: bump the existing entry in place,
or append a fresh entry at count 1. -/
def bumpCount (m : List (String × Nat)) (n : String) : List (String × Nat) :=
  if (m.find? (fun e => decide (e.1 = n))).isSome then
    m.map (fun e => if e.1 = n then (e.1, e.2 + 1) else e)
  else m ++ [(n, 1)]

/-- The `walkCounts` record, keys in first-occurrence order. -/
def walkCounts (slots : List WalkingSlot) : List (String × Nat) :=
  slots.foldl (fun m s => bumpCount m s.name) []

/-- A row of the leaderboard response. -/
structure LeaderboardEntry where
  name : String
  totalWalks : Nat
  colorIndex : Nat
deriving DecidableEq, Repr

/-- The sort comparator `(a, b) => b.totalWalks - a.totalWalks`:
descending by count. -/
def byWalksDesc (a b : LeaderboardEntry) : Bool :=
  decide (b.totalWalks ≤ a.totalWalks)

/-- Method `DatabaseStorage.getLeaderboardAllTime`. -/
def getLeaderboardAllTime (slots : List WalkingSlot)
    (color : String → Nat) : List LeaderboardEntry :=
  ((walkCounts slots).map
    (fun e => ⟨e.1, e.2, color e.1⟩)).mergeSort byWalksDesc

/-- Method `DatabaseStorage.getLeaderboardNextWeek`: the same aggregation over the
slots the SQL range query returns (`startDate <= date <= startDate + 6`). -/
def getLeaderboardNextWeek (slots : List WalkingSlot)
    (color : String → Nat) (startDate : Date) : List LeaderboardEntry :=
  ((walkCounts (slots.filter (fun s => decide (dateLe startDate s.date ∧
      dateLe s.date (addDays startDate 6))))).map
    (fun e => ⟨e.1, e.2, color e.1⟩)).mergeSort byWalksDesc

/-- Invariant of the `walkCounts` accumulation: keys are distinct, every
entry counts the occurrences of its name among the processed slots, and
the keys are exactly the processed names. -/
def CountsInv (m : List (String × Nat)) (done : List String) : Prop :=
  (m.map (·.1)).Nodup ∧
  (∀ e ∈ m, e.2 = done.countP (fun x => decide (x = e.1))) ∧
  (∀ x, (∃ e ∈ m, e.1 = x) ↔ x ∈ done)

theorem daysInMonth_le_31 (y m : Nat) : daysInMonth y m ≤ 31 := by
  unfold daysInMonth
  split <;> first | omega | (split <;> omega)

theorem one_le_daysInMonth (y m : Nat) : 1 ≤ daysInMonth y m := by
  unfold daysInMonth
  split <;> first | omega | (split <;> omega)

theorem nextDay_valid {d : Date} (h : ValidDate d) : ValidDate (nextDay d) := by
  obtain ⟨y, m, day⟩ := d
  obtain ⟨h1, h2, h3, h4⟩ := h
  simp only [] at h1 h2 h3 h4
  have h5 := one_le_daysInMonth y (m + 1)
  have h6 : daysInMonth (y + 1) 1 = 31 := rfl
  by_cases hd : day < daysInMonth y m
  · simp only [nextDay, if_pos hd, ValidDate]
    omega
  · by_cases hm : m < 12
    · simp only [nextDay, if_neg hd, if_pos hm, ValidDate]
      omega
    · simp only [nextDay, if_neg hd, if_neg hm, ValidDate]
      omega

theorem dateRank_lt_nextDay {d : Date} (h : ValidDate d) :
    dateRank d < dateRank (nextDay d) := by
  obtain ⟨y, m, day⟩ := d
  obtain ⟨h1, h2, h3, h4⟩ := h
  simp only [] at h1 h2 h3 h4
  have h31 := daysInMonth_le_31 y m
  by_cases hd : day < daysInMonth y m
  · simp only [nextDay, if_pos hd, dateRank]
    omega
  · by_cases hm : m < 12
    · simp only [nextDay, if_neg hd, if_pos hm, dateRank]
      omega
    · simp only [nextDay, if_neg hd, if_neg hm, dateRank]
      omega

theorem addDays_valid {d : Date} (h : ValidDate d) (n : Nat) :
    ValidDate (addDays d n) := by
  induction n with
  | zero => exact h
  | succ n ih => exact nextDay_valid ih

theorem dateRank_addDays_strictMono {d : Date} (h : ValidDate d) {i j : Nat}
    (hij : i < j) : dateRank (addDays d i) < dateRank (addDays d j) := by
  induction j with
  | zero => omega
  | succ j ih =>
    have hv : ValidDate (addDays d j) := addDays_valid h j
    have hstep := dateRank_lt_nextDay hv
    rcases Nat.lt_succ_iff_lt_or_eq.mp hij with hlt | heq
    · exact lt_trans (ih hlt) hstep
    · subst heq; exact hstep

theorem addDays_injOn {d : Date} (h : ValidDate d) {i j : Nat}
    (hij : addDays d i = addDays d j) : i = j := by
  rcases Nat.lt_trichotomy i j with hlt | heq | hgt
  · exact absurd (dateRank_addDays_strictMono h hlt) (by rw [hij]; omega)
  · exact heq
  · exact absurd (dateRank_addDays_strictMono h hgt) (by rw [hij]; omega)

theorem dateRank_inj {a b : Date} (ha : ValidDate a) (hb : ValidDate b)
    (h : dateRank a = dateRank b) : a = b := by
  obtain ⟨a1, a2, a3, a4⟩ := ha
  obtain ⟨b1, b2, b3, b4⟩ := hb
  have ha31 := daysInMonth_le_31 a.year a.month
  have hb31 := daysInMonth_le_31 b.year b.month
  unfold dateRank at h
  obtain ⟨ay, am, ad⟩ := a
  obtain ⟨by', bm, bd⟩ := b
  simp only [Date.mk.injEq]
  simp only [] at h a1 a2 a3 a4 b1 b2 b3 b4 ha31 hb31
  omega

/-- No valid date lies strictly between a valid date and its successor. -/
theorem nextDay_least {e d : Date} (he : ValidDate e) (hd : ValidDate d)
    (h : dateLt e d) : dateLe (nextDay e) d := by
  obtain ⟨ey, em, ed⟩ := e
  obtain ⟨dy, dm, dd⟩ := d
  obtain ⟨e1, e2, e3, e4⟩ := he
  obtain ⟨d1, d2, d3, d4⟩ := hd
  simp only [] at e1 e2 e3 e4 d1 d2 d3 d4
  have he31 := daysInMonth_le_31 ey em
  have hd31 := daysInMonth_le_31 dy dm
  simp only [dateLt, dateRank] at h
  by_cases hday : ed < daysInMonth ey em
  · simp only [nextDay, if_pos hday, dateLe, dateRank]
    omega
  · by_cases hmon : em < 12
    · simp only [nextDay, if_neg hday, if_pos hmon, dateLe, dateRank]
      -- end of month: the only valid dates above (ey, em, last) with rank
      -- below (ey, em + 1, 1) would share year and month, but their day
      -- would exceed the month length
      rcases Nat.lt_trichotomy ey dy with hy | hy | hy
      · omega
      · rcases Nat.lt_trichotomy em dm with hm | hm | hm
        · omega
        · have hdim : daysInMonth dy dm = daysInMonth ey em := by rw [hy, hm]
          omega
        · omega
      · omega
    · have hm12 : em = 12 := by omega
      have hlast : daysInMonth ey em = 31 := by rw [hm12]; rfl
      simp only [nextDay, if_neg hday, if_neg hmon, dateLe, dateRank]
      rcases Nat.lt_trichotomy ey dy with hy | hy | hy
      · omega
      · omega
      · omega

/-- A valid date lies in the closed 7-day block `[start, start+6]` exactly
when it is one of the 7 dates `start, ..., start+6`. -/
theorem mem_week_iff {start d : Date} (hs : ValidDate start) (hd : ValidDate d) :
    (dateLe start d ∧ dateLe d (addDays start 6)) ↔ ∃ i < 7, d = addDays start i := by
  constructor
  · rintro ⟨hle, hge⟩
    have key : ∀ n : Nat, dateLe d (addDays start n) → ∃ i ≤ n, d = addDays start i := by
      intro n
      induction n with
      | zero =>
        intro hn
        refine ⟨0, le_refl 0, ?_⟩
        exact dateRank_inj hd hs (le_antisymm hn hle)
      | succ n ih =>
        intro hn
        by_cases hcase : dateLe d (addDays start n)
        · obtain ⟨i, hi, hieq⟩ := ih hcase
          exact ⟨i, by omega, hieq⟩
        · have hlt : dateLt (addDays start n) d := by
            unfold dateLe at hcase; unfold dateLt; omega
          have hnv : ValidDate (addDays start n) := addDays_valid hs n
          have hsucc := nextDay_least hnv hd hlt
          have heq : d = addDays start (n + 1) := by
            apply dateRank_inj hd (addDays_valid hs (n + 1))
            have h1 : dateRank (addDays start (n + 1)) ≤ dateRank d := hsucc
            have h2 : dateRank d ≤ dateRank (addDays start (n + 1)) := hn
            omega
          exact ⟨n + 1, le_refl _, heq⟩
    obtain ⟨i, hi, hieq⟩ := key 6 hge
    exact ⟨i, by omega, hieq⟩
  · rintro ⟨i, hi, rfl⟩
    have h0 : addDays start 0 = start := rfl
    constructor
    · unfold dateLe
      rcases Nat.eq_zero_or_pos i with hz | hpos
      · subst hz; rw [h0]
      · have h := dateRank_addDays_strictMono hs hpos
        rw [h0] at h
        omega
    · unfold dateLe
      rcases Nat.lt_or_ge i 6 with hlt | hge6
      · have h := dateRank_addDays_strictMono hs hlt
        omega
      · have h6 : i = 6 := by omega
        subst h6; omega

theorem getSlot_eq_none_iff {s : SlotStore} {date : Date} {time : String} :
    getSlot s date time = none ↔
      ∀ e ∈ s, e.1 ≠ createSlotKey date time := by
  unfold getSlot
  rw [Option.map_eq_none', List.find?_eq_none]
  simp

theorem goodStore_reachable {s : SlotStore} (h : SlotReachable s) :
    GoodStore s := by
  induction h with
  | empty => exact ⟨by simp, List.nodup_nil⟩
  | add hr hadd ih =>
    rename_i s input now s' slot
    obtain ⟨ih1, ih2⟩ := ih
    unfold addSlot at hadd
    by_cases hocc : (getSlot s input.date input.time).isSome
    · rw [if_pos hocc] at hadd; exact absurd hadd (by simp)
    · rw [if_neg hocc] at hadd
      simp only [Except.ok.injEq, Prod.mk.injEq] at hadd
      obtain ⟨hs', hslot⟩ := hadd
      subst hs'
      constructor
      · intro e he
        rcases List.mem_append.mp he with hmem | hmem
        · exact ih1 e hmem
        · simp only [List.mem_singleton] at hmem
          subst hmem; rfl
      · rw [List.map_append, List.nodup_append]
        refine ⟨ih2, List.nodup_singleton _, ?_⟩
        intro k hk hk'
        simp only [List.map_cons, List.map_nil, List.mem_singleton] at hk'
        subst hk'
        have hnone : getSlot s input.date input.time = none := by
          cases hg : getSlot s input.date input.time with
          | none => rfl
          | some v => rw [hg] at hocc; simp at hocc
        obtain ⟨e, he, hkey⟩ := List.mem_map.mp hk
        exact (getSlot_eq_none_iff.mp hnone e he) hkey
  | remove hr ih =>
    rename_i s date time
    obtain ⟨ih1, ih2⟩ := ih
    unfold removeSlot
    split
    · constructor
      · intro e he
        exact ih1 e (List.mem_of_mem_filter he)
      · exact List.Nodup.sublist
          (List.Sublist.map _ (List.filter_sublist s)) ih2
    · exact ⟨ih1, ih2⟩

theorem goodStore_atMostOne {s : SlotStore} (h : GoodStore s)
    (date : Date) (time : String) : slotCount s date time ≤ 1 := by
  obtain ⟨h1, h2⟩ := h
  unfold slotCount
  have hmono : s.countP (fun e => decide (e.2.date = date ∧ e.2.time = time)) ≤
      s.countP (fun e => decide (e.1 = createSlotKey date time)) := by
    apply List.countP_mono_left
    intro e he hp
    simp only [decide_eq_true_eq] at hp ⊢
    rw [h1 e he, hp.1, hp.2]
  refine le_trans hmono ?_
  have hcount : ∀ (l : SlotStore), (l.map (·.1)).Nodup →
      l.countP (fun e => decide (e.1 = createSlotKey date time)) ≤ 1 := by
    intro l
    induction l with
    | nil => intro _; simp
    | cons e rest ih =>
      intro hnd
      rw [List.map_cons, List.nodup_cons] at hnd
      obtain ⟨hnotin, hnd2⟩ := hnd
      rw [List.countP_cons]
      by_cases he : e.1 = createSlotKey date time
      · have hzero : rest.countP
            (fun e2 => decide (e2.1 = createSlotKey date time)) = 0 := by
          rw [List.countP_eq_zero]
          intro a ha
          simp only [decide_eq_true_eq]
          intro hk
          exact hnotin (by rw [he, ← hk]; exact List.mem_map_of_mem _ ha)
        simp [he, hzero]
      · simpa [he] using ih hnd2
  exact hcount s h2

theorem getSlot_append_single {s : SlotStore} {k : Date × String}
    {slot : WalkingSlot} {date : Date} {time : String} :
    getSlot (s ++ [(k, slot)]) date time =
      match getSlot s date time with
      | some v => some v
      | none => if k = createSlotKey date time then some slot else none := by
  unfold getSlot
  rw [List.find?_append]
  cases hf : s.find? (fun e => decide (e.1 = createSlotKey date time)) with
  | some v => simp
  | none =>
    simp only [Option.map_none', Option.none_orElse]
    by_cases hk : k = createSlotKey date time
    · simp [List.find?, hk]
    · simp [List.find?, hk]

/-- C2: every sequence of `addSlot` / `removeSlot` operations keeps at most
one slot per `(date, time)` key; `addSlot` on an occupied key fails with the
conflict error (the store argument is untouched), and `addSlot` on a free
key appends exactly one slot at that key, leaving every other key
unchanged. -/
theorem addSlot_uniqueness (s : SlotStore) (hs : SlotReachable s) :
    (∀ date time, slotCount s date time ≤ 1) ∧
    (∀ input now, (getSlot s input.date input.time).isSome →
        addSlot s input now = .error "Slot is already booked") ∧
    (∀ input now s' slot, getSlot s input.date input.time = none →
        addSlot s input now = .ok (s', slot) →
        s' = s ++ [(createSlotKey input.date input.time, slot)] ∧
        s'.length = s.length + 1 ∧
        getSlot s' input.date input.time = some slot ∧
        (∀ date time, createSlotKey date time ≠ createSlotKey input.date input.time →
            getSlot s' date time = getSlot s date time)) := by
  refine ⟨fun date time => goodStore_atMostOne (goodStore_reachable hs) date time,
    ?_, ?_⟩
  · intro input now hsome
    unfold addSlot
    rw [if_pos hsome]
  · intro input now s' slot hnone hadd
    unfold addSlot at hadd
    rw [hnone] at hadd
    simp only [Option.isSome_none, Bool.false_eq_true, if_false,
      Except.ok.injEq, Prod.mk.injEq] at hadd
    obtain ⟨hs', hslot⟩ := hadd
    subst hs'
    subst hslot
    refine ⟨rfl, by simp, ?_, ?_⟩
    · rw [getSlot_append_single, hnone]
      simp
    · intro date time hne
      rw [getSlot_append_single]
      cases hg : getSlot s date time with
      | some v => rfl
      | none =>
        simp only []
        rw [if_neg (fun h => hne h.symm)]

/-- Witness for C2 at a concrete reachable store: Alice holds the
2025-04-20 12:00 slot, so a second booking for the same key is rejected
with the conflict error. -/
theorem addSlot_uniqueness_witness :
    slotCount [((⟨2025, 4, 20⟩, "1200"), ⟨⟨2025, 4, 20⟩, "1200", "Alice", "", 7⟩)]
        ⟨2025, 4, 20⟩ "1200" ≤ 1 ∧
    addSlot [((⟨2025, 4, 20⟩, "1200"), ⟨⟨2025, 4, 20⟩, "1200", "Alice", "", 7⟩)]
        ⟨⟨2025, 4, 20⟩, "1200", "Bob", none⟩ 9 = .error "Slot is already booked" := by
  have hr : SlotReachable
      [((⟨2025, 4, 20⟩, "1200"), ⟨⟨2025, 4, 20⟩, "1200", "Alice", "", 7⟩)] :=
    @SlotReachable.add [] ⟨⟨2025, 4, 20⟩, "1200", "Alice", none⟩ 7 _ _
      SlotReachable.empty rfl
  obtain ⟨h1, h2, h3⟩ := addSlot_uniqueness _ hr
  exact ⟨h1 ⟨2025, 4, 20⟩ "1200", h2 ⟨⟨2025, 4, 20⟩, "1200", "Bob", none⟩ 9 rfl⟩

/-- C1: refuted by the code — the `DELETE /api/slot` handler performs no
ownership check.  With the slot at (2025-04-21, 1800) stored under the name
`OwnerUser`, a cancel request supplying the non-matching name
`DifferentUser` succeeds and deletes the slot (and the cancel notification
is emitted under the caller's name), where the claim requires a Forbidden
failure with no mutation. -/
theorem cancel_mismatched_name_deletes :
    cancelHandler ownerStore ⟨2025, 4, 21⟩ "1800" "DifferentUser" =
      (.success, [], some ⟨⟨2025, 4, 21⟩, "1800", "DifferentUser", "", 0⟩) ∧
    getSlot ownerStore ⟨2025, 4, 21⟩ "1800" =
      some ⟨⟨2025, 4, 21⟩, "1800", "OwnerUser", "", 0⟩ ∧
    "OwnerUser" ≠ "DifferentUser" := by
  refine ⟨rfl, rfl, ?_⟩
  decide

theorem findFreeIdx_finds_least {used : List Nat} {k : Nat}
    (hk : IsLeastFree used k) :
    ∀ start fuel, start ≤ k → k - start ≤ fuel →
      findFreeIdx used start fuel = some k := by
  obtain ⟨hk10, hkfree, hkbelow⟩ := hk
  intro start fuel
  induction fuel generalizing start with
  | zero =>
    intro hle hfuel
    have : start = k := by omega
    subst this
    unfold findFreeIdx
    rw [if_neg (by simpa using hkfree)]
  | succ fuel ih =>
    intro hle hfuel
    rcases Nat.lt_or_ge start k with hlt | hge
    · have hmem : start ∈ used := hkbelow start hlt
      unfold findFreeIdx
      rw [if_pos (by simpa using hmem)]
      have hmod : (start + 1) % MAX_COLORS = start + 1 :=
        Nat.mod_eq_of_lt (by unfold MAX_COLORS at *; omega)
      rw [hmod]
      exact ih (start + 1) (by omega) (by omega)
    · have : start = k := by omega
      subst this
      unfold findFreeIdx
      rw [if_neg (by simpa using hkfree)]

theorem findFreeIdx_exhausted {used : List Nat}
    (hall : ∀ j < MAX_COLORS, j ∈ used) :
    ∀ fuel start, start < MAX_COLORS → findFreeIdx used start fuel = none := by
  intro fuel
  induction fuel with
  | zero =>
    intro start hstart
    unfold findFreeIdx
    rw [if_pos (by simpa using hall start hstart)]
  | succ fuel ih =>
    intro start hstart
    unfold findFreeIdx
    rw [if_pos (by simpa using hall start hstart)]
    exact ih _ (Nat.mod_lt _ (by unfold MAX_COLORS; omega))

theorem findFreeIdx_sound {used : List Nat} :
    ∀ fuel start k, start < MAX_COLORS →
      findFreeIdx used start fuel = some k → k < MAX_COLORS ∧ k ∉ used := by
  intro fuel
  induction fuel with
  | zero =>
    intro start k hstart h
    unfold findFreeIdx at h
    by_cases hmem : used.contains start
    · rw [if_pos hmem] at h; exact absurd h (by simp)
    · rw [if_neg hmem] at h
      simp only [Option.some.injEq] at h
      subst h
      exact ⟨hstart, by simpa using hmem⟩
  | succ fuel ih =>
    intro start k hstart h
    unfold findFreeIdx at h
    by_cases hmem : used.contains start
    · rw [if_pos hmem] at h
      exact ih _ _ (Nat.mod_lt _ (by unfold MAX_COLORS; omega)) h
    · rw [if_neg hmem] at h
      simp only [Option.some.injEq] at h
      subst h
      exact ⟨hstart, by simpa using hmem⟩

/-- Invariant carried by every reachable registry: all stored indices are
below `MAX_COLORS` and no index repeats. -/
theorem registry_invariant {w : Registry} (h : RegistryReachable w) :
    (usedIndices w).Nodup ∧ ∀ i ∈ usedIndices w, i < MAX_COLORS := by
  induction h with
  | empty => exact ⟨List.nodup_nil, by simp [usedIndices]⟩
  | getColor hr hstep ih =>
    rename_i w name i w'
    obtain ⟨ih1, ih2⟩ := ih
    unfold getWalkerColorIndex at hstep
    cases hlook : lookupWalker w name with
    | some j =>
      rw [hlook] at hstep
      simp only [Option.some.injEq, Prod.mk.injEq] at hstep
      obtain ⟨hi, hw⟩ := hstep
      subst hw
      exact ⟨ih1, ih2⟩
    | none =>
      rw [hlook] at hstep
      cases hfind : findFreeIdx (usedIndices w) 0 MAX_COLORS with
      | none => rw [hfind] at hstep; exact absurd hstep (by simp)
      | some idx =>
        rw [hfind] at hstep
        simp only [Option.some.injEq, Prod.mk.injEq] at hstep
        obtain ⟨hi, hw⟩ := hstep
        subst hw
        obtain ⟨hidx10, hidxfree⟩ :=
          findFreeIdx_sound MAX_COLORS 0 idx (by unfold MAX_COLORS; omega) hfind
        constructor
        · unfold usedIndices at *
          rw [List.map_append, List.nodup_append]
          exact ⟨ih1, List.nodup_singleton _, by
            intro a ha hb
            simp only [List.map_cons, List.map_nil, List.mem_singleton] at hb
            subst hb
            exact hidxfree ha⟩
        · unfold usedIndices at *
          intro j hj
          rw [List.map_append, List.mem_append] at hj
          rcases hj with hj | hj
          · exact ih2 j hj
          · simp only [List.map_cons, List.map_nil, List.mem_singleton] at hj
            subst hj
            exact hidx10

theorem lookupWalker_mem {w : Registry} {name : String} {i : Nat}
    (h : lookupWalker w name = some i) : i ∈ usedIndices w := by
  unfold lookupWalker at h
  cases hf : w.find? (fun e => decide (e.1 = name)) with
  | none => rw [hf] at h; exact absurd h (by simp)
  | some e =>
    rw [hf] at h
    simp only [Option.map_some', Option.some.injEq] at h
    subst h
    exact List.mem_map_of_mem _ (List.mem_of_find?_eq_some hf)

/-- C3: `getWalkerColorIndex` on an unregistered name assigns the smallest
index in `[0, MAX_COLORS)` not currently in use, appends the new walker
with that index, and returns it. -/
theorem getColorIndex_assigns_least (w : Registry) (name : String) (k : Nat)
    (hnew : lookupWalker w name = none) (hk : IsLeastFree (usedIndices w) k) :
    getWalkerColorIndex w name MAX_COLORS = some (k, w ++ [(name, k)]) := by
  unfold getWalkerColorIndex
  rw [hnew, findFreeIdx_finds_least hk 0 MAX_COLORS (Nat.zero_le k)
    (by obtain ⟨h10, h2, h3⟩ := hk; omega)]

/-- Witness for C3: with no participants, `NewPerson` receives index 0; a
second distinct name registered immediately after receives index 1. -/
theorem getColorIndex_assigns_least_witness :
    getWalkerColorIndex [] "NewPerson" MAX_COLORS =
      some (0, [("NewPerson", 0)]) ∧
    getWalkerColorIndex [("NewPerson", 0)] "Second" MAX_COLORS =
      some (1, [("NewPerson", 0), ("Second", 1)]) :=
  ⟨getColorIndex_assigns_least [] "NewPerson" 0 rfl (by decide),
   getColorIndex_assigns_least [("NewPerson", 0)] "Second" 1 rfl (by decide)⟩

/-- C6: refuted by the code — the exhausted registry is reachable (ten
successive first registrations), yet `getWalkerColorIndex` of an eleventh
new name never returns, whatever fuel the lowest-free-index loop is given:
`(nextIndex + 1) % MAX_COLORS` keeps the probe inside `[0, 10)`, where
every index is in use, so the `while` loop never exits. -/
theorem getColorIndex_exhausted_never_returns :
    RegistryReachable exhaustedRegistry ∧
    ∀ fuel, getWalkerColorIndex exhaustedRegistry "W10" fuel = none := by
  constructor
  · have h0 : RegistryReachable [] := .empty
    have h1 := @RegistryReachable.getColor _ "W0" 0 _ h0 rfl
    have h2 := @RegistryReachable.getColor _ "W1" 1 _ h1 rfl
    have h3 := @RegistryReachable.getColor _ "W2" 2 _ h2 rfl
    have h4 := @RegistryReachable.getColor _ "W3" 3 _ h3 rfl
    have h5 := @RegistryReachable.getColor _ "W4" 4 _ h4 rfl
    have h6 := @RegistryReachable.getColor _ "W5" 5 _ h5 rfl
    have h7 := @RegistryReachable.getColor _ "W6" 6 _ h6 rfl
    have h8 := @RegistryReachable.getColor _ "W7" 7 _ h7 rfl
    have h9 := @RegistryReachable.getColor _ "W8" 8 _ h8 rfl
    exact @RegistryReachable.getColor _ "W9" 9 _ h9 rfl
  · have hall : ∀ j < MAX_COLORS, j ∈ usedIndices exhaustedRegistry := by
      decide
    intro fuel
    unfold getWalkerColorIndex
    have hlook : lookupWalker exhaustedRegistry "W10" = none := rfl
    rw [hlook,
      findFreeIdx_exhausted hall fuel 0 (by unfold MAX_COLORS; omega)]

/-- C7: while fewer than `MAX_COLORS` distinct participants have ever been
registered, no two registered walkers share a color index (registration
and upsert both go through `getWalkerColorIndex`, which preserves this). -/
theorem colors_distinct_below_palette (w : Registry)
    (hw : RegistryReachable w) (hsize : w.length < MAX_COLORS) :
    (usedIndices w).Nodup :=
  (registry_invariant hw).1

/-- Witness for C7 at a concrete two-walker reachable registry. -/
theorem colors_distinct_below_palette_witness :
    (usedIndices [("NewPerson", 0), ("Second", 1)]).Nodup := by
  have h0 : RegistryReachable [] := .empty
  have h1 := @RegistryReachable.getColor _ "NewPerson" 0 _ h0 rfl
  have h2 := @RegistryReachable.getColor _ "Second" 1 _ h1 rfl
  exact colors_distinct_below_palette _ h2 (by decide)

/-- C9: refuted by the code — when the backing store is unreachable, the
catch branch of `DatabaseStorage.getWalkerColorIndex` returns the default
index 0 and the route answers `200 { colorIndex: 0 }`, byte-for-byte the
same response as a genuine success for a walker whose stored index is 0. -/
theorem unavailable_store_reports_success :
    walkerColorRoute .unavailable "Alice" = (200, 0) ∧
    walkerColorRoute (.avail [("Alice", 0)]) "Alice" = (200, 0) := by
  exact ⟨rfl, rfl⟩

/-- C9 amended: an unreachable backing store is swallowed by the catch
branch; the caller always receives HTTP 200 with color index 0 and no
server error is surfaced. -/
theorem unavailable_store_returns_default (name : String) :
    walkerColorRoute .unavailable name = (200, 0) := rfl

/-- C10: every color index stored in a reachable registry is in
`[0, MAX_COLORS)`; every index returned by `getWalkerColorIndex` is in
range and the registry it leaves behind stays in range; and the
error-fallback answer of the route over an unreachable store is index 0,
also in range. -/
theorem colorIndex_always_in_range (w : Registry) (hw : RegistryReachable w) :
    (∀ i ∈ usedIndices w, i < MAX_COLORS) ∧
    (∀ name i w', getWalkerColorIndex w name MAX_COLORS = some (i, w') →
        i < MAX_COLORS ∧ ∀ j ∈ usedIndices w', j < MAX_COLORS) ∧
    (∀ name, (walkerColorRoute .unavailable name).2 < MAX_COLORS) := by
  refine ⟨(registry_invariant hw).2, ?_, ?_⟩
  · intro name i w' hstep
    have hr' : RegistryReachable w' :=
      @RegistryReachable.getColor w name i w' hw hstep
    have hbound := (registry_invariant hr').2
    refine ⟨?_, hbound⟩
    apply hbound
    unfold getWalkerColorIndex at hstep
    cases hlook : lookupWalker w name with
    | some j =>
      rw [hlook] at hstep
      simp only [Option.some.injEq, Prod.mk.injEq] at hstep
      obtain ⟨hi, hweq⟩ := hstep
      subst hi; subst hweq
      exact lookupWalker_mem hlook
    | none =>
      rw [hlook] at hstep
      cases hfind : findFreeIdx (usedIndices w) 0 MAX_COLORS with
      | none => rw [hfind] at hstep; exact absurd hstep (by simp)
      | some idx =>
        rw [hfind] at hstep
        simp only [Option.some.injEq, Prod.mk.injEq] at hstep
        obtain ⟨hi, hweq⟩ := hstep
        subst hi; subst hweq
        unfold usedIndices
        rw [List.map_append]
        exact List.mem_append_right _ (by simp)
  · intro name
    show (0 : Nat) < MAX_COLORS
    unfold MAX_COLORS
    omega

/-- Witness for C10 at a concrete reachable registry: the index stored for
`NewPerson` is below the palette size. -/
theorem colorIndex_always_in_range_witness : (0 : Nat) < MAX_COLORS := by
  have h0 : RegistryReachable [] := .empty
  have h1 := @RegistryReachable.getColor _ "NewPerson" 0 _ h0 rfl
  exact (colorIndex_always_in_range _ h1).1 0 (by decide)

theorem findFreeIdx_least_of_some {used : List Nat} :
    ∀ fuel start k, start < MAX_COLORS → (∀ j < start, j ∈ used) →
      findFreeIdx used start fuel = some k → ∀ j < k, j ∈ used := by
  intro fuel
  induction fuel with
  | zero =>
    intro start k hstart hinv h
    unfold findFreeIdx at h
    by_cases hmem : used.contains start
    · rw [if_pos hmem] at h; exact absurd h (by simp)
    · rw [if_neg hmem] at h
      simp only [Option.some.injEq] at h
      subst h
      exact hinv
  | succ fuel ih =>
    intro start k hstart hinv h
    unfold findFreeIdx at h
    by_cases hmem : used.contains start
    · rw [if_pos hmem] at h
      by_cases hwrap : start + 1 < MAX_COLORS
      · have hmod : (start + 1) % MAX_COLORS = start + 1 :=
          Nat.mod_eq_of_lt hwrap
        rw [hmod] at h
        refine ih (start + 1) k hwrap ?_ h
        intro j hj
        rcases Nat.lt_or_ge j start with hlt | hge
        · exact hinv j hlt
        · have : j = start := by omega
          subst this
          simpa using hmem
      · have hstart9 : start + 1 = MAX_COLORS := by omega
        have hmod : (start + 1) % MAX_COLORS = 0 := by
          rw [hstart9, Nat.mod_self]
        rw [hmod] at h
        exact ih 0 k (by unfold MAX_COLORS; omega) (by omega) h
    · rw [if_neg hmem] at h
      simp only [Option.some.injEq] at h
      subst h
      exact hinv

theorem lookupReplit_setReplit (w : ReplitReg) (name : String)
    (v : WalkerData) : lookupReplit (setReplit w name v) name = some v := by
  unfold setReplit
  by_cases hmem : (w.find? (fun e => decide (e.1 = name))).isSome
  · rw [if_pos hmem]
    induction w with
    | nil => simp at hmem
    | cons e rest ih =>
      by_cases he : e.1 = name
      · unfold lookupReplit
        simp [List.find?, he]
      · have hrest : (rest.find? (fun x => decide (x.1 = name))).isSome := by
          rw [List.find?_cons_of_neg] at hmem
          · exact hmem
          · simp [he]
        unfold lookupReplit at *
        rw [List.map_cons, if_neg he, List.find?_cons_of_neg _ (by simp [he])]
        exact ih hrest
  · rw [if_neg hmem]
    have hnone : w.find? (fun e => decide (e.1 = name)) = none := by
      cases hf : w.find? (fun e => decide (e.1 = name)) with
      | none => rfl
      | some e => rw [hf] at hmem; simp at hmem
    unfold lookupReplit
    rw [List.find?_append, hnone]
    simp [List.find?]

theorem setReplit_pos (w : ReplitReg) (name : String) (v : WalkerData)
    (hmem : (w.find? (fun e => decide (e.1 = name))).isSome) :
    setReplit w name v =
      w.map (fun e => if e.1 = name then (name, v) else e) := by
  unfold setReplit; rw [if_pos hmem]

theorem setReplit_neg (w : ReplitReg) (name : String) (v : WalkerData)
    (hmem : ¬ (w.find? (fun e => decide (e.1 = name))).isSome) :
    setReplit w name v = w ++ [(name, v)] := by
  unfold setReplit; rw [if_neg hmem]

theorem setReplit_overwrite (w : ReplitReg) (name : String)
    (v v' : WalkerData) :
    setReplit (setReplit w name v) name v' = setReplit w name v' := by
  have hmemX : ((setReplit w name v).find?
      (fun e => decide (e.1 = name))).isSome := by
    have hl := lookupReplit_setReplit w name v
    unfold lookupReplit at hl
    cases hf : (setReplit w name v).find? (fun e => decide (e.1 = name)) with
    | none => rw [hf] at hl; simp at hl
    | some e => simp
  by_cases hmem : (w.find? (fun e => decide (e.1 = name))).isSome
  · have hset := setReplit_pos w name v hmem
    rw [hset] at hmemX
    rw [hset, setReplit_pos _ name v' hmemX, setReplit_pos w name v' hmem,
      List.map_map]
    apply List.map_congr_left
    intro e he
    by_cases he1 : e.1 = name
    · simp [Function.comp, he1]
    · simp [Function.comp, he1]
  · have hnone : w.find? (fun e => decide (e.1 = name)) = none := by
      cases hf : w.find? (fun e => decide (e.1 = name)) with
      | none => rfl
      | some e => rw [hf] at hmem; simp at hmem
    have hall : ∀ e ∈ w, e.1 ≠ name := by
      intro e he
      have := List.find?_eq_none.mp hnone e he
      simpa using this
    have hmap : w.map (fun e => if e.1 = name then (name, v') else e) = w := by
      rw [List.map_eq_map_iff.mpr]
      · exact List.map_id _
      · intro e he
        simp [hall e he]
    have hset := setReplit_neg w name v hmem
    rw [hset] at hmemX
    rw [hset, setReplit_pos _ name v' hmemX, setReplit_neg w name v' hmem,
      List.map_append, hmap]
    simp

/-- C8: refuted by the code — `ReplitStorage.updateWalker` with an absent
contact argument overwrites the stored record with
`{ colorIndex, phone: undefined }`, erasing the previously stored phone,
where the claim requires the stored contact to be unchanged. -/
theorem upsert_absent_contact_erases_stored :
    lookupReplit [("Dana", ⟨3, some "+15555550100"⟩)] "Dana" =
      some ⟨3, some "+15555550100"⟩ ∧
    replitUpdateWalker [("Dana", ⟨3, some "+15555550100"⟩)] "Dana" none 10 =
      some (("Dana", 3, none), [("Dana", ⟨3, none⟩)]) :=
  ⟨rfl, rfl⟩

/-- C8 amended: `updateWalker` registers an unknown name with the
lowest-free color index, always overwrites the stored contact with the
supplied argument (clearing it when the argument is absent or empty), and
repeated calls with the same arguments are idempotent: same stored state
and same returned color index. -/
theorem upsert_registers_overwrites_idempotent
    (w : ReplitReg) (name : String) (phone : Option String)
    (r : String × Nat × Option String) (w' : ReplitReg)
    (h : replitUpdateWalker w name phone 10 = some (r, w')) :
    r.1 = name ∧ r.2.2 = phone ∧
    lookupReplit w' name = some ⟨r.2.1, orUndefined phone⟩ ∧
    (lookupReplit w name = none →
        IsLeastFree (w.map (·.2.colorIndex)) r.2.1) ∧
    replitUpdateWalker w' name phone 10 = some (r, w') := by
  unfold replitUpdateWalker at h
  cases hget : replitGetWalkerColorIndex w name 10 with
  | none => rw [hget] at h; exact absurd h (by simp)
  | some pair =>
    obtain ⟨ci, w1⟩ := pair
    rw [hget] at h
    simp only [Option.some.injEq, Prod.mk.injEq] at h
    obtain ⟨hr, hw'⟩ := h
    subst hr
    have hlook' : lookupReplit w' name = some ⟨ci, orUndefined phone⟩ := by
      rw [← hw']
      exact lookupReplit_setReplit w1 name _
    refine ⟨rfl, rfl, hlook', ?_, ?_⟩
    · intro hnone
      unfold replitGetWalkerColorIndex at hget
      cases hlookw : lookupReplit w name with
      | some d => rw [hlookw] at hnone; exact absurd hnone (by simp)
      | none =>
        rw [hlookw] at hget
        cases hfind : findFreeIdx (w.map (·.2.colorIndex)) 0 10 with
        | none => rw [hfind] at hget; exact absurd hget (by simp)
        | some idx =>
          rw [hfind] at hget
          simp only [Option.some.injEq, Prod.mk.injEq] at hget
          obtain ⟨hci, hw1⟩ := hget
          have hfuel : findFreeIdx (w.map (·.2.colorIndex)) 0 MAX_COLORS =
              some idx := by
            unfold MAX_COLORS; exact hfind
          obtain ⟨h10, hfree⟩ := findFreeIdx_sound MAX_COLORS 0 idx
            (by unfold MAX_COLORS; omega) hfuel
          have hleast := findFreeIdx_least_of_some MAX_COLORS 0 idx
            (by unfold MAX_COLORS; omega) (by omega) hfuel
          rw [← hci]
          exact ⟨h10, hfree, hleast⟩
    · unfold replitUpdateWalker replitGetWalkerColorIndex
      rw [hlook']
      simp only []
      rw [← hw']
      have hset : setReplit w' name ⟨ci, orUndefined phone⟩ = w' := by
        rw [← hw']
        exact setReplit_overwrite w1 name _ _
      rw [hw', hset]

/-- Witness for the amended C8 at a concrete input: registering `Ann` with
a phone number stores it, and an immediate repetition returns the same
result and leaves the store unchanged. -/
theorem upsert_registers_overwrites_idempotent_witness :
    lookupReplit [("Ann", ⟨0, some "+15555550123"⟩)] "Ann" =
      some ⟨0, orUndefined (some "+15555550123")⟩ ∧
    replitUpdateWalker [("Ann", ⟨0, some "+15555550123"⟩)] "Ann"
        (some "+15555550123") 10 =
      some (("Ann", 0, some "+15555550123"),
        [("Ann", ⟨0, some "+15555550123"⟩)]) :=
  ⟨(upsert_registers_overwrites_idempotent [] "Ann" (some "+15555550123")
      ("Ann", 0, some "+15555550123")
      [("Ann", ⟨0, some "+15555550123"⟩)] rfl).2.2.1,
   (upsert_registers_overwrites_idempotent [] "Ann" (some "+15555550123")
      ("Ann", 0, some "+15555550123")
      [("Ann", ⟨0, some "+15555550123"⟩)] rfl).2.2.2.2⟩

theorem charListLe_total : ∀ x y, charListLe x y || charListLe y x := by
  intro x
  induction x with
  | nil => intro y; simp [charListLe]
  | cons a as ih =>
    intro y
    cases y with
    | nil => simp [charListLe]
    | cons b bs =>
      by_cases hab : a = b
      · subst hab
        simpa [charListLe] using ih bs
      · rcases lt_or_gt_of_ne hab with hlt | hgt
        · simp [charListLe, hab, hlt]
        · simp [charListLe, hab, Ne.symm hab, hgt]

theorem charListLe_trans :
    ∀ x y z, charListLe x y → charListLe y z → charListLe x z := by
  intro x
  induction x with
  | nil => intro y z h1 h2; simp [charListLe]
  | cons a as ih =>
    intro y z h1 h2
    cases y with
    | nil => simp [charListLe] at h1
    | cons b bs =>
      cases z with
      | nil => simp [charListLe] at h2
      | cons c cs =>
        by_cases hab : a = b
        · subst hab
          by_cases hac : a = c
          · subst hac
            simp only [charListLe, if_pos rfl] at h1 h2 ⊢
            exact ih bs cs h1 h2
          · simp only [charListLe, if_pos rfl] at h1
            simp only [charListLe, if_neg hac] at h2 ⊢
            exact h2
        · simp only [charListLe, if_neg hab] at h1
          have hab' : a < b := of_decide_eq_true h1
          by_cases hbc : b = c
          · subst hbc
            simp only [charListLe, if_neg hab]
            simpa using hab'
          · simp only [charListLe, if_neg hbc] at h2
            have hbc' : b < c := of_decide_eq_true h2
            have hac' : a < c := lt_trans hab' hbc'
            simp only [charListLe, if_neg (ne_of_lt hac')]
            simpa using hac'

theorem timeLe_total : ∀ a b, timeLe a b || timeLe b a := by
  intro a b; exact charListLe_total a.time.data b.time.data

theorem timeLe_trans : ∀ a b c, timeLe a b → timeLe b c → timeLe a c := by
  intro a b c; exact charListLe_trans a.time.data b.time.data c.time.data

/-- C4: for a valid start date the schedule has exactly 7 entries, keyed by
`startDate .. startDate+6` with no repeats; each entry holds precisely the
stored slots bearing that date, sorted ascending by time; a date with no
bookings gets the empty list; and every stored slot whose date falls in the
window appears under its date. -/
theorem getSchedule_week_complete (slots : List WalkingSlot)
    (startDate : Date) (hv : ValidDate startDate) :
    (getSchedule slots startDate).length = 7 ∧
    (getSchedule slots startDate).map (·.1) =
      (List.range 7).map (addDays startDate) ∧
    ((getSchedule slots startDate).map (·.1)).Nodup ∧
    (∀ d l, (d, l) ∈ getSchedule slots startDate →
        l.Perm (slots.filter (fun s => decide (s.date = d))) ∧
        l.Pairwise (fun a b => timeLe a b = true) ∧
        ((∀ s ∈ slots, s.date ≠ d) → l = [])) ∧
    (∀ s ∈ slots, ∀ i < 7, s.date = addDays startDate i →
        ∃ l, (addDays startDate i, l) ∈ getSchedule slots startDate ∧
          s ∈ l) := by
  have hkeys : (getSchedule slots startDate).map (·.1) =
      (List.range 7).map (addDays startDate) := by
    unfold getSchedule
    rw [List.map_map]
    rfl
  refine ⟨by simp [getSchedule], hkeys, ?_, ?_, ?_⟩
  · rw [hkeys]
    refine List.Nodup.map_on ?_ (List.nodup_range 7)
    intro i hi j hj hij
    exact addDays_injOn hv hij
  · intro d l hmem
    unfold getSchedule at hmem
    obtain ⟨i, hi, hpair⟩ := List.mem_map.mp hmem
    rw [Prod.mk.injEq] at hpair
    obtain ⟨hd, hl⟩ := hpair
    subst hd
    subst hl
    refine ⟨?_, ?_, ?_⟩
    · exact List.mergeSort_perm _ _
    · exact List.sorted_mergeSort timeLe_trans timeLe_total _
    · intro hnone
      have hfilter : slots.filter
          (fun s => decide (s.date = addDays startDate i)) = [] := by
        rw [List.filter_eq_nil_iff]
        intro s hs
        simpa using hnone s hs
      rw [hfilter, List.mergeSort_nil]
  · intro s hs i hi hdate
    refine ⟨(slots.filter
        (fun s => decide (s.date = addDays startDate i))).mergeSort timeLe,
      ?_, ?_⟩
    · unfold getSchedule
      exact List.mem_map.mpr ⟨i, List.mem_range.mpr hi, rfl⟩
    · rw [List.mem_mergeSort]
      exact List.mem_filter.mpr ⟨hs, by simpa using hdate⟩

/-- Witness for C4 at a concrete input: one slot booked on 2025-04-20, the
week starting that day. -/
theorem getSchedule_week_complete_witness :
    (getSchedule [⟨⟨2025, 4, 20⟩, "1200", "Alice", "", 0⟩]
      ⟨2025, 4, 20⟩).length = 7 :=
  (getSchedule_week_complete [⟨⟨2025, 4, 20⟩, "1200", "Alice", "", 0⟩]
    ⟨2025, 4, 20⟩ (by decide)).1

theorem bumpCount_inv {m : List (String × Nat)} {done : List String}
    (n : String) (h : CountsInv m done) :
    CountsInv (bumpCount m n) (done ++ [n]) := by
  obtain ⟨h1, h2, h3⟩ := h
  have hcnt : ∀ (a : String),
      List.countP (fun x => decide (x = a)) [n] = if n = a then 1 else 0 := by
    intro a
    by_cases hna : n = a
    · simp [List.countP_cons, hna]
    · simp [List.countP_cons, hna]
  by_cases hmem : (m.find? (fun e => decide (e.1 = n))).isSome
  · have hn : ∃ e ∈ m, e.1 = n := by
      cases hf : m.find? (fun e => decide (e.1 = n)) with
      | none => rw [hf] at hmem; simp at hmem
      | some e =>
        refine ⟨e, List.mem_of_find?_eq_some hf, ?_⟩
        have := List.find?_some hf
        simpa using this
    have hkeys : (bumpCount m n).map (·.1) = m.map (·.1) := by
      unfold bumpCount
      rw [if_pos hmem, List.map_map]
      apply List.map_congr_left
      intro e he
      by_cases he1 : e.1 = n
      · simp [Function.comp, he1]
      · simp [Function.comp, he1]
    refine ⟨by rw [hkeys]; exact h1, ?_, ?_⟩
    · intro e2 he2
      unfold bumpCount at he2
      rw [if_pos hmem] at he2
      obtain ⟨e, he, hfe⟩ := List.mem_map.mp he2
      rw [List.countP_append, hcnt]
      by_cases he1 : e.1 = n
      · rw [if_pos he1] at hfe
        rw [← hfe]
        simp only []
        rw [h2 e he, if_pos he1.symm]
      · rw [if_neg he1] at hfe
        rw [← hfe, h2 e he, if_neg (fun hc => he1 hc.symm)]
        omega
    · intro x
      constructor
      · intro hx
        obtain ⟨e2, he2, hx2⟩ := hx
        have hkmem : e2.1 ∈ (bumpCount m n).map (·.1) :=
          List.mem_map_of_mem _ he2
        rw [hkeys] at hkmem
        obtain ⟨e, he, hee⟩ := List.mem_map.mp hkmem
        exact List.mem_append_left _ ((h3 x).mp ⟨e, he, by rw [hee, hx2]⟩)
      · intro hx
        rcases List.mem_append.mp hx with hx | hx
        · obtain ⟨e, he, hee⟩ := (h3 x).mpr hx
          have hkmem : e.1 ∈ (bumpCount m n).map (·.1) := by
            rw [hkeys]; exact List.mem_map_of_mem _ he
          obtain ⟨e2, he2, hee2⟩ := List.mem_map.mp hkmem
          exact ⟨e2, he2, by rw [hee2, hee]⟩
        · rw [List.mem_singleton] at hx
          obtain ⟨e, he, hee⟩ := hn
          have hkmem : e.1 ∈ (bumpCount m n).map (·.1) := by
            rw [hkeys]; exact List.mem_map_of_mem _ he
          obtain ⟨e2, he2, hee2⟩ := List.mem_map.mp hkmem
          exact ⟨e2, he2, by rw [hee2, hee, ← hx]⟩
  · have hnone : m.find? (fun e => decide (e.1 = n)) = none := by
      cases hf : m.find? (fun e => decide (e.1 = n)) with
      | none => rfl
      | some e2 => rw [hf] at hmem; simp at hmem
    have hfresh : ∀ e ∈ m, e.1 ≠ n := by
      intro e he
      have := List.find?_eq_none.mp hnone e he
      simpa using this
    have hset : bumpCount m n = m ++ [(n, 1)] := by
      unfold bumpCount; rw [if_neg hmem]
    have hnotdone : n ∉ done := by
      intro hc
      obtain ⟨e, he, hee⟩ := (h3 n).mpr hc
      exact hfresh e he hee
    refine ⟨?_, ?_, ?_⟩
    · rw [hset, List.map_append, List.nodup_append]
      refine ⟨h1, List.nodup_singleton _, ?_⟩
      intro a ha hb
      simp only [List.map_cons, List.map_nil, List.mem_singleton] at hb
      obtain ⟨e, he, hee⟩ := List.mem_map.mp ha
      exact hfresh e he (by rw [hee, hb])
    · intro e2 he2
      rw [hset] at he2
      rcases List.mem_append.mp he2 with he | he
      · rw [List.countP_append, h2 e2 he, hcnt,
          if_neg (fun hc => hfresh e2 he hc.symm)]
        omega
      · rw [List.mem_singleton] at he
        rw [he]
        simp only []
        rw [List.countP_append, hcnt, if_pos rfl]
        have hz : done.countP (fun x => decide (x = n)) = 0 := by
          rw [List.countP_eq_zero]
          intro a ha
          simp only [decide_eq_true_eq]
          intro hc
          exact hnotdone (hc ▸ ha)
        omega
    · intro x
      rw [hset]
      constructor
      · intro hx
        obtain ⟨e2, he2, hx2⟩ := hx
        rcases List.mem_append.mp he2 with he | he
        · exact List.mem_append_left _ ((h3 x).mp ⟨e2, he, hx2⟩)
        · rw [List.mem_singleton] at he
          refine List.mem_append_right _ ?_
          rw [List.mem_singleton, ← hx2, he]
      · intro hx
        rcases List.mem_append.mp hx with hx | hx
        · obtain ⟨e, he, hee⟩ := (h3 x).mpr hx
          exact ⟨e, List.mem_append_left _ he, hee⟩
        · rw [List.mem_singleton] at hx
          exact ⟨(n, 1), List.mem_append_right _ (by simp), hx.symm⟩

theorem walkCounts_inv (slots : List WalkingSlot) :
    CountsInv (walkCounts slots) (slots.map (·.name)) := by
  have hgo : ∀ (rest : List WalkingSlot) (m : List (String × Nat))
      (done : List String), CountsInv m done →
      CountsInv (rest.foldl (fun m s => bumpCount m s.name) m)
        (done ++ rest.map (·.name)) := by
    intro rest
    induction rest with
    | nil => intro m done h; simpa using h
    | cons s rest ih =>
      intro m done h
      have hstep := bumpCount_inv s.name h
      have := ih (bumpCount m s.name) (done ++ [s.name]) hstep
      simpa [List.append_assoc] using this
  have h0 : CountsInv [] [] := by
    refine ⟨List.nodup_nil, by simp, by simp⟩
  simpa using hgo slots [] [] h0

theorem decide_and_eq (p q : Prop) [Decidable p] [Decidable q] :
    (decide p && decide q) = decide (p ∧ q) := by
  by_cases hp : p <;> by_cases hq : q <;> simp [hp, hq]

/-- The SQL window `startDate <= date <= startDate+6` coincides with the
half-open calendar window `startDate <= date < startDate+7` on valid
dates. -/
theorem week_window_iff {start d : Date} (hs : ValidDate start)
    (hd : ValidDate d) :
    (dateLe start d ∧ dateLe d (addDays start 6)) ↔
      (dateLe start d ∧ dateLt d (addDays start 7)) := by
  have h7 : addDays start 7 = nextDay (addDays start 6) := rfl
  have h6v : ValidDate (addDays start 6) := addDays_valid hs 6
  constructor
  · rintro ⟨ha, hb⟩
    refine ⟨ha, ?_⟩
    rw [h7]
    have hstep := dateRank_lt_nextDay h6v
    unfold dateLe at hb; unfold dateLt; omega
  · rintro ⟨ha, hb⟩
    refine ⟨ha, ?_⟩
    rw [h7] at hb
    by_contra hc
    have hlt : dateLt (addDays start 6) d := by
      unfold dateLe at hc; unfold dateLt; omega
    have hmin := nextDay_least h6v hd hlt
    unfold dateLe at hmin; unfold dateLt at hb; omega

theorem countP_name (slots : List WalkingSlot) (nm : String) :
    (slots.map (·.name)).countP (fun x => decide (x = nm)) =
      (slots.filter (fun s => decide (s.name = nm))).length := by
  rw [List.countP_map, List.countP_eq_length_filter]
  rfl

/-- C5: every all-time leaderboard entry counts exactly the stored slots
bearing its name; every rolling-window entry counts exactly the slots with
its name whose date lies in `[startDate, startDate+7)` under calendar-date
comparison; every booked name has an all-time entry; and both lists are
sorted descending by `totalWalks`. -/
theorem leaderboard_counts_correct (slots : List WalkingSlot)
    (color : String → Nat) (startDate : Date) (hv : ValidDate startDate)
    (hslots : ∀ s ∈ slots, ValidDate s.date) :
    (∀ e ∈ getLeaderboardAllTime slots color,
        e.totalWalks =
          (slots.filter (fun s => decide (s.name = e.name))).length) ∧
    (∀ s ∈ slots, ∃ e ∈ getLeaderboardAllTime slots color,
        e.name = s.name) ∧
    (getLeaderboardAllTime slots color).Pairwise
      (fun a b => b.totalWalks ≤ a.totalWalks) ∧
    (∀ e ∈ getLeaderboardNextWeek slots color startDate,
        e.totalWalks = (slots.filter (fun s => decide (s.name = e.name ∧
          dateLe startDate s.date ∧
          dateLt s.date (addDays startDate 7)))).length) ∧
    (getLeaderboardNextWeek slots color startDate).Pairwise
      (fun a b => b.totalWalks ≤ a.totalWalks) := by
  have hdesc_trans : ∀ a b c, byWalksDesc a b → byWalksDesc b c →
      byWalksDesc a c := by
    intro a b c h1 h2
    unfold byWalksDesc at *
    have h1' := of_decide_eq_true h1
    have h2' := of_decide_eq_true h2
    simp only [decide_eq_true_eq]
    omega
  have hdesc_total : ∀ a b, byWalksDesc a b || byWalksDesc b a := by
    intro a b
    unfold byWalksDesc
    rcases Nat.le_total b.totalWalks a.totalWalks with h | h
    · simp [h]
    · simp [h]
  have hsorted : ∀ (l : List LeaderboardEntry),
      (l.mergeSort byWalksDesc).Pairwise
        (fun a b => b.totalWalks ≤ a.totalWalks) := by
    intro l
    refine (List.sorted_mergeSort hdesc_trans hdesc_total l).imp ?_
    intro a b hab
    have := of_decide_eq_true hab
    exact this
  have hentry : ∀ (l : List WalkingSlot) (e : LeaderboardEntry),
      e ∈ ((walkCounts l).map
        (fun p => (⟨p.1, p.2, color p.1⟩ : LeaderboardEntry))).mergeSort
          byWalksDesc →
      e.totalWalks = (l.filter (fun s => decide (s.name = e.name))).length := by
    intro l e he
    rw [List.mem_mergeSort] at he
    obtain ⟨p, hp, hpe⟩ := List.mem_map.mp he
    obtain ⟨hnd, hcounts, hmem⟩ := walkCounts_inv l
    rw [← hpe]
    simp only []
    rw [hcounts p hp, countP_name]
  refine ⟨?_, ?_, hsorted _, ?_, hsorted _⟩
  · intro e he
    exact hentry slots e he
  · intro s hs
    obtain ⟨hnd, hcounts, hmem⟩ := walkCounts_inv slots
    obtain ⟨p, hp, hps⟩ := (hmem s.name).mpr (List.mem_map_of_mem _ hs)
    refine ⟨⟨p.1, p.2, color p.1⟩, ?_, hps⟩
    unfold getLeaderboardAllTime
    rw [List.mem_mergeSort]
    exact List.mem_map_of_mem _ hp
  · intro e he
    unfold getLeaderboardNextWeek at he
    have hweek := hentry (slots.filter (fun s =>
      decide (dateLe startDate s.date ∧
        dateLe s.date (addDays startDate 6)))) e he
    rw [hweek, List.filter_filter]
    congr 1
    apply List.filter_congr
    intro s hs
    have hv' := hslots s hs
    have hiff := week_window_iff hv hv'
    rw [decide_and_eq]
    rw [decide_eq_decide]
    constructor
    · rintro ⟨hn, hw⟩
      exact ⟨hn, (hiff.mp hw).1, (hiff.mp hw).2⟩
    · rintro ⟨hn, h1, h2⟩
      exact ⟨hn, hiff.mpr ⟨h1, h2⟩⟩

/-- Witness for C5 at a concrete input: Alice books twice, Bob once, week
of 2025-04-20; the all-time list is sorted descending. -/
theorem leaderboard_counts_correct_witness :
    (getLeaderboardAllTime
      [⟨⟨2025, 4, 20⟩, "1200", "Alice", "", 0⟩,
       ⟨⟨2025, 4, 21⟩, "0900", "Alice", "", 1⟩,
       ⟨⟨2025, 4, 22⟩, "0900", "Bob", "", 2⟩] (fun x => 0)).Pairwise
      (fun a b => b.totalWalks ≤ a.totalWalks) :=
  (leaderboard_counts_correct
    [⟨⟨2025, 4, 20⟩, "1200", "Alice", "", 0⟩,
     ⟨⟨2025, 4, 21⟩, "0900", "Alice", "", 1⟩,
     ⟨⟨2025, 4, 22⟩, "0900", "Bob", "", 2⟩] (fun x => 0) ⟨2025, 4, 20⟩
    (by decide) (by decide)).2.2.1

end FinnWalks
